import Mathlib

/-!
Verification of the go-cachefn repository (two cache engines: the per-key
`Cache` ("PointCache") and the bulk `CacheMap` ("BulkCache")) against its
specification.

Embedding conventions, fixed once for the whole development:

* Time (`time.Time`, `time.Duration`) is modelled by `Nat` nanoseconds. A Go
  zero `time.Time` (`IsZero`) is modelled by `Option Nat` being `none`. Each
  call of an operation executes at a single instant `now : Nat`; every
  `time.Now()` inside that call returns `now`. `time.Since(t)` is `now - t`
  (the program only ever measures times that are in the past, so truncated
  subtraction is faithful). The Go right shift `d >> 1` on a non-negative
  duration is `Nat` division by 2.

* The `ready chan struct\x7b\x7d` one-shot channel of an element is modelled by
  `gate : Option Bool`: `none` is a nil channel (entries made by `Cache.Set`),
  `some false` an open channel, `some true` a closed (resolved) one.

* A Go `select` between `ctx.Done()` and a channel receive is modelled by two
  Booleans: `ctxDone` (is the context done at this instant) and `selChoice`
  (which branch the runtime picks when both are enabled — Go chooses
  pseudo-randomly, so it is a free parameter). When neither branch is enabled
  the call blocks: the model returns `none` (no result).

* The haxmap concurrent map is modelled extensionally as `K → Option entry`.
  `GetOrCompute` is atomic in haxmap; the race model for coalescing treats the
  insert as one atomic transition.

* A producer (`refreshFunc`) outcome is a pair `V × Bool`. The maintenance
  loop passes a context bounded by a timeout; the model passes that timeout
  bound to the producer explicitly so that theorems can speak about it.
-/

/-- Cache entry of the per-key cache, mirroring `element[V]` of the source:
`data`, `lastUsed` (zero `time.Time` as `none`), `created`, and the `ready`
channel as `gate` (see the conventions above). -/
structure element (V : Type) where
  data : V
  lastUsed : Option Nat
  created : Nat
  gate : Option Bool
deriving DecidableEq, Repr

/-- Bulk-cache entry, mirroring `mapElement[V]` of the source. -/
structure mapElement (V : Type) where
  data : V
  created : Nat
deriving DecidableEq, Repr

/-- Tail of `Cache.Get` on a loaded entry after the readiness wait (or when no
gate applies): mirror of the `value.lastUsed.IsZero()` check, the `lastUsed`
stamp and the return. Returns the call result and the entry as left in the
map. -/
def Cache.getReady {V : Type} (e : element V) (now : Nat) :
    (V × Bool) × element V :=
  match e.lastUsed with
  | none => ((e.data, false), e)
  | some _ => ((e.data, true), { e with lastUsed := some now })

/-- Mirror of `Cache.Get`: the slot for the requested key is `slot` (`none`
when the key is absent), `zero` is the Go zero value of `V`, `producer` the
result `refreshFunc(ctx, key)` would deliver, `now` the instant of the call.
Returns `none` when the call blocks forever (unresolved gate, live context),
otherwise the result pair together with the slot afterwards. On the insert
path the factory stamps `created`, the producer runs, on `ok` the data and
`lastUsed` are stored, and the deferred `close(value.ready)` resolves the
gate on every return path. -/
def Cache.Get {V : Type} (zero : V) (slot : Option (element V))
    (ctxDone selChoice : Bool) (producer : V × Bool) (now : Nat) :
    Option ((V × Bool) × element V) :=
  match slot with
  | some e =>
    match e.gate with
    | some resolved =>
      if resolved then
        if ctxDone && selChoice then some ((e.data, false), e)
        else some (Cache.getReady e now)
      else
        if ctxDone then some ((e.data, false), e)
        else none
    | none => some (Cache.getReady e now)
  | none =>
    let e0 : element V := { data := zero, lastUsed := none, created := now, gate := some false }
    let e1 := if producer.2 then { e0 with data := producer.1, lastUsed := some now } else e0
    some ((e1.data, producer.2), { e1 with gate := some true })

/-- Mirror of `Cache.Set`: a fully resolved entry with `created` and
`lastUsed` stamped and a nil `ready` channel. -/
def Cache.Set {V : Type} (v : V) (now : Nat) : element V :=
  { data := v, lastUsed := some now, created := now, gate := none }

/-- Outcome of the per-entry classification done by the maintenance loop of
the per-key cache; `refresh` carries the timeout bound put on the context
handed to the producer. -/
inductive SweepAction where
  | delete : SweepAction
  | keep : SweepAction
  | refresh : Nat → SweepAction
deriving DecidableEq, Repr

/-- Per-entry classification of the maintenance loop in `New`, mirroring the
`if`/`else if` chain: entries older than `KeepTime` (when positive) are
marked for deletion; entries younger than `RefreshTime` are fresh; entries
whose `created` is after `lastUsed` are left alone; entries read within the
last `RefreshTime/2` are refreshed with a context bounded by `RefreshTime/2`;
anything else is left to decay. -/
def Cache.classify {V : Type} (refreshTime keepTime now : Nat) (e : element V) :
    SweepAction :=
  let sinceCreated := now - e.created
  if 0 < keepTime ∧ keepTime < sinceCreated then .delete
  else if sinceCreated < refreshTime then .keep
  else if e.lastUsed.getD 0 < e.created then .keep
  else if now - e.lastUsed.getD 0 < refreshTime / 2 then .refresh (refreshTime / 2)
  else .keep

/-- Effect of one maintenance pass on a single entry: deletion removes it, a
refresh invokes the producer under the timeout bound and on success
overwrites `data` and `created` in place (leaving `lastUsed` and the gate
untouched), and a failed refresh leaves the entry as it was. -/
def Cache.sweepEntry {K V : Type} (refreshTime keepTime now : Nat)
    (prod : Nat → K → V × Bool) (k : K) (e : element V) : Option (element V) :=
  match Cache.classify refreshTime keepTime now e with
  | .delete => none
  | .keep => some e
  | .refresh timeout =>
    if (prod timeout k).2 then some { e with data := (prod timeout k).1, created := now }
    else some e

/-- One maintenance cycle of the per-key cache over the whole map: every
entry is classified and refreshed or kept, and all marked keys are deleted. -/
def Cache.sweep {K V : Type} (refreshTime keepTime now : Nat)
    (prod : Nat → K → V × Bool) (m : K → Option (element V)) :
    K → Option (element V) :=
  fun k => (m k).bind (Cache.sweepEntry refreshTime keepTime now prod k)

/-- Mirror of `CacheMap.Get`: `ready` says whether the cache-wide gate is
resolved; the select between `ctx.Done()` and the gate follows the select
convention; once ready a plain lookup is performed, with the Go naked
`return` delivering the zero value and `false`. `none` means the call
blocks. -/
def CacheMap.Get {K V : Type} (zero : V) (ready ctxDone selChoice : Bool)
    (m : K → Option (mapElement V)) (k : K) : Option (V × Bool) :=
  if ctxDone && (!ready || selChoice) then some (zero, false)
  else if ready then
    match m k with
    | some e => some (e.data, true)
    | none => some (zero, false)
  else none

/-- The setter handed to a bulk producer: `c.cacheMap.Set(key, ...)` with
`created` stamped at the write. -/
def CacheMap.set {K V : Type} [DecidableEq K] (m : K → Option (mapElement V))
    (k : K) (v : V) (now : Nat) : K → Option (mapElement V) :=
  fun q => if q = k then some { data := v, created := now } else m q

/-- One producer run seen through its map effect: the sequence of setter
calls the producer makes, applied left to right. The producer can only add
or overwrite entries through the setter; it has no way to delete. -/
def CacheMap.applyRun {K V : Type} [DecidableEq K] (m : K → Option (mapElement V))
    (writes : List (K × V)) (now : Nat) : K → Option (mapElement V) :=
  writes.foldl (fun acc kv => CacheMap.set acc kv.1 kv.2 now) m

/-- Age sweep of the bulk maintenance loop: every entry with
`time.Since(value.created) > c.KeepTime` is collected in `toDelete` and
deleted; there is no positivity guard on `KeepTime`. -/
def CacheMap.sweep {K V : Type} (keepTime now : Nat)
    (m : K → Option (mapElement V)) : K → Option (mapElement V) :=
  fun k => (m k).bind fun e => if keepTime < now - e.created then none else some e

/-- State of the bulk cache's one-shot readiness gate: whether `c.ready` has
been closed, and how many times a close has actually happened (the
`sync.OnceFunc` wrapper makes every call after the first a no-op). -/
structure GateState where
  resolved : Bool
  closeCount : Nat
deriving DecidableEq, Repr

/-- Mirror of the `sync.OnceFunc(func() \x7b close(c.ready) \x7d)` wrapper: the
first call closes the channel, later calls do nothing. -/
def CacheMap.resolveOnce (g : GateState) : GateState :=
  if g.resolved then g else { resolved := true, closeCount := g.closeCount + 1 }

/-- Gate state after the maintenance goroutine has performed the given
producer runs (`true` = the run returned `store = true` with the lifecycle
context still live): each successful run calls `ready()`. -/
def CacheMap.gateAfterRuns (outs : List Bool) : GateState :=
  outs.foldl (fun g ok => if ok then CacheMap.resolveOnce g else g) ⟨false, 0⟩

/-- Gate state once the maintenance goroutine exits: the `defer ready()`
releases any holds on shutdown. -/
def CacheMap.gateAtShutdown (outs : List Bool) : GateState :=
  CacheMap.resolveOnce (CacheMap.gateAfterRuns outs)

/-- Helper: with `keepTime = 0` the classification of the per-key sweep can
never be `delete`, because the delete branch requires `0 < keepTime`. -/
theorem Cache.classify_keepTime_zero {V : Type} (refreshTime now : Nat) (e : element V) :
    Cache.classify refreshTime 0 now e ≠ .delete := by
  have h0 : ¬(0 < 0 ∧ 0 < now - e.created) := by omega
  simp only [Cache.classify, if_neg h0]
  split
  · simp
  · split
    · simp
    · split <;> simp

/-- Helper: with `keepTime = 0` the per-key sweep never removes an entry. -/
theorem Cache.sweepEntry_keepTime_zero {K V : Type} (refreshTime now : Nat)
    (prod : Nat → K → V × Bool) (k : K) (e : element V) :
    Cache.sweepEntry refreshTime 0 now prod k e ≠ none := by
  cases hc : Cache.classify refreshTime 0 now e with
  | delete => exact absurd hc (Cache.classify_keepTime_zero refreshTime now e)
  | keep => simp [Cache.sweepEntry, hc]
  | refresh t =>
    simp only [Cache.sweepEntry, hc]
    split <;> simp

/-- C2: on the insert path of `Cache.Get` (absent key) the readiness gate is
resolved on return regardless of the producer outcome; on `ok = true` the
produced data is stored, `created` and `lastUsed` are stamped to the current
instant and `(data, true)` is returned; on `ok = false` the `lastUsed` field
stays unset and `(zero, false)` is returned. -/
theorem Cache.Get_insert_path {V : Type} (zero d : V) (ok : Bool)
    (ctxDone selChoice : Bool) (now : Nat) :
    Cache.Get zero none ctxDone selChoice (d, ok) now =
      some ((if ok then d else zero, ok),
            { data := if ok then d else zero,
              lastUsed := if ok then some now else none,
              created := now, gate := some true }) := by
  cases ok <;> rfl

/-- C3: on a loaded slot, (a) with the gate unresolved and the context done,
`Cache.Get` returns the current value with `false` and leaves the slot
untouched; (b) once the gate is resolved (or when no gate applies because the
entry came from `Set`) and the context is live, an unset `lastUsedAt` means
the first computation failed and the call returns `(value, false)` leaving
the slot unchanged (so later calls keep returning `false`), while a set
`lastUsedAt` is stamped to now and `(value, true)` is returned. -/
theorem Cache.Get_existing_path {V : Type} (zero : V) (e : element V)
    (selChoice : Bool) (producer : V × Bool) (now : Nat) :
    (e.gate = some false →
      Cache.Get zero (some e) true selChoice producer now = some ((e.data, false), e)) ∧
    ((e.gate = some true ∨ e.gate = none) →
      (e.lastUsed = none →
        Cache.Get zero (some e) false selChoice producer now = some ((e.data, false), e)) ∧
      (∀ t, e.lastUsed = some t →
        Cache.Get zero (some e) false selChoice producer now =
          some ((e.data, true), { e with lastUsed := some now }))) := by
  refine ⟨fun hg => ?_, fun hg => ⟨fun hl => ?_, fun t hl => ?_⟩⟩
  · simp [Cache.Get, hg]
  · rcases hg with hg | hg <;> simp [Cache.Get, hg, Cache.getReady, hl]
  · rcases hg with hg | hg <;> simp [Cache.Get, hg, Cache.getReady, hl]

/-- Witness for C3 at a concrete resolved entry with `lastUsed` set. -/
theorem Cache.Get_existing_path_witness :
    Cache.Get 0 (some ⟨5, some 2, 1, some true⟩) false true (9, false) 7 =
      some ((5, true), ⟨5, some 7, 1, some true⟩) :=
  ((Cache.Get_existing_path 0 ⟨5, some 2, 1, some true⟩ true (9, false) 7).2
    (Or.inl rfl)).2 2 rfl

/-- C4: `CacheMap.Get` waits on the context against the cache-wide gate: if
the context is done while the cache is not ready the zero value and `false`
come back; once the gate is resolved and the context is live, a plain lookup
returns `(value, true)` for a present key and `(zero, false)` for an absent
one; with neither the context done nor the gate resolved the call blocks. -/
theorem CacheMap.Get_spec {K V : Type} (zero : V) (selChoice : Bool)
    (m : K → Option (mapElement V)) (k : K) :
    (CacheMap.Get zero false true selChoice m k = some (zero, false)) ∧
    (∀ e, m k = some e → CacheMap.Get zero true false selChoice m k = some (e.data, true)) ∧
    (m k = none → CacheMap.Get zero true false selChoice m k = some (zero, false)) ∧
    (CacheMap.Get zero false false selChoice m k = none) := by
  refine ⟨rfl, fun e he => ?_, fun he => ?_, rfl⟩ <;> simp [CacheMap.Get, he]

/-- Witness for C4 at a concrete one-entry map. -/
theorem CacheMap.Get_spec_witness :
    CacheMap.Get 0 true false false (fun _ : Nat => some ⟨3, 0⟩) 1 = some (3, true) :=
  (CacheMap.Get_spec 0 false (fun _ : Nat => some ⟨3, 0⟩) 1).2.1 ⟨3, 0⟩ rfl

/-- Helper: a key that is not among a run's written keys keeps its previous
slot, untouched, through the whole run. -/
theorem CacheMap.applyRun_not_written {K V : Type} [DecidableEq K]
    (writes : List (K × V)) (m : K → Option (mapElement V)) (now : Nat) (k : K)
    (h : k ∉ writes.map Prod.fst) : CacheMap.applyRun m writes now k = m k := by
  induction writes generalizing m with
  | nil => rfl
  | cons w ws ih =>
    simp only [List.map_cons, List.mem_cons, not_or] at h
    have step : CacheMap.applyRun m (w :: ws) now =
        CacheMap.applyRun (CacheMap.set m w.1 w.2 now) ws now := rfl
    rw [step, ih _ h.2]
    simp [CacheMap.set, h.1]

/-- C5: the bulk map is additive — a producer run that does not write a key
leaves that key's slot exactly as it was (an omission never removes it), and
the only removal mechanism, the age sweep, keeps every entry whose age is at
most `keepTime`. -/
theorem CacheMap.additive_merge {K V : Type} [DecidableEq K]
    (m : K → Option (mapElement V)) (writes : List (K × V))
    (now keepTime : Nat) (k : K) :
    (k ∉ writes.map Prod.fst → CacheMap.applyRun m writes now k = m k) ∧
    (∀ e, m k = some e → now - e.created ≤ keepTime →
      CacheMap.sweep keepTime now m k = some e) := by
  refine ⟨fun h => CacheMap.applyRun_not_written writes m now k h, fun e he hage => ?_⟩
  simp [CacheMap.sweep, he, Nat.not_lt.mpr hage]

/-- Witness for C5: a run writing only key 2 leaves key 1 alone, and the
sweep keeps the still-young entry at key 1. -/
theorem CacheMap.additive_merge_witness :
    CacheMap.applyRun (fun q : Nat => if q = 1 then some ⟨4, 0⟩ else none)
        [(2, 9)] 5 1 = some ⟨4, 0⟩ ∧
    CacheMap.sweep 10 5 (fun q : Nat => if q = 1 then some ⟨4, 0⟩ else none) 1 =
      some ⟨4, 0⟩ := by
  have h := CacheMap.additive_merge
    (fun q : Nat => if q = 1 then some (⟨4, 0⟩ : mapElement Nat) else none) [(2, 9)] 5 10 1
  exact ⟨h.1 (by decide), h.2 ⟨4, 0⟩ rfl (by decide)⟩

/-- C6: an entry that is stale (`refreshTime ≤ now - created`), not past its
keep time, and recently read is selected for proactive refresh: the producer
is invoked under a context bounded by `refreshTime / 2`; on success the data
and `created` are overwritten in place, and on failure the entry is left
exactly as it was. -/
theorem Cache.proactive_refresh {K V : Type} (refreshTime keepTime now : Nat)
    (prod : Nat → K → V × Bool) (k : K) (e : element V)
    (hkeep : keepTime = 0 ∨ now - e.created ≤ keepTime)
    (hstale : refreshTime ≤ now - e.created)
    (hused : e.created ≤ e.lastUsed.getD 0)
    (hrecent : now - e.lastUsed.getD 0 < refreshTime / 2) :
    Cache.classify refreshTime keepTime now e = .refresh (refreshTime / 2) ∧
    ((prod (refreshTime / 2) k).2 = true →
      Cache.sweepEntry refreshTime keepTime now prod k e =
        some { e with data := (prod (refreshTime / 2) k).1, created := now }) ∧
    ((prod (refreshTime / 2) k).2 = false →
      Cache.sweepEntry refreshTime keepTime now prod k e = some e) := by
  have h1 : ¬(0 < keepTime ∧ keepTime < now - e.created) := by
    rcases hkeep with h | h <;> omega
  have hcl : Cache.classify refreshTime keepTime now e = .refresh (refreshTime / 2) := by
    simp only [Cache.classify, if_neg h1, if_neg (Nat.not_lt.mpr hstale),
      if_neg (Nat.not_lt.mpr hused), if_pos hrecent]
  refine ⟨hcl, fun hok => ?_, fun hfail => ?_⟩
  · simp [Cache.sweepEntry, hcl, hok]
  · simp [Cache.sweepEntry, hcl, hfail]

/-- Witness for C6 at a concrete stale, recently read entry. -/
theorem Cache.proactive_refresh_witness :
    Cache.classify 10 0 12 (⟨1, some 10, 0, some true⟩ : element Nat) =
      .refresh 5 ∧
    Cache.sweepEntry 10 0 12 (fun _ _ : Nat => (7, true)) 0
      (⟨1, some 10, 0, some true⟩ : element Nat) = some ⟨7, some 10, 12, some true⟩ := by
  have h := Cache.proactive_refresh 10 0 12 (fun _ _ : Nat => ((7 : Nat), true)) 0
    (⟨1, some 10, 0, some true⟩ : element Nat) (Or.inl rfl) (by decide) (by decide) (by decide)
  exact ⟨h.1, h.2.1 rfl⟩

/-- C7: with `keepTime` positive, an entry whose age exceeds `keepTime` is
gone from the map after the maintenance cycle, and with `keepTime = 0` the
sweep never removes any entry (forced age eviction is disabled). -/
theorem Cache.age_eviction {K V : Type} (refreshTime keepTime now : Nat)
    (prod : Nat → K → V × Bool) (m : K → Option (element V)) (k : K) :
    (∀ e, m k = some e → 0 < keepTime → keepTime < now - e.created →
      Cache.sweep refreshTime keepTime now prod m k = none) ∧
    (∀ e, m k = some e → Cache.sweep refreshTime 0 now prod m k ≠ none) := by
  constructor
  · intro e he hkt hage
    have hcl : Cache.classify refreshTime keepTime now e = .delete := by
      simp only [Cache.classify, if_pos (And.intro hkt hage)]
    simp [Cache.sweep, he, Cache.sweepEntry, hcl]
  · intro e he
    simp only [Cache.sweep, he, Option.bind_some]
    exact Cache.sweepEntry_keepTime_zero refreshTime now prod k e

/-- Witness for C7: an over-age entry disappears with `keepTime = 3`, and the
same entry survives a sweep with `keepTime = 0`. -/
theorem Cache.age_eviction_witness :
    Cache.sweep 10 3 20 (fun _ _ : Nat => (0, false))
      (fun _ : Nat => some (⟨1, none, 0, some true⟩ : element Nat)) 0 = none ∧
    Cache.sweep 10 0 20 (fun _ _ : Nat => (0, false))
      (fun _ : Nat => some (⟨1, none, 0, some true⟩ : element Nat)) 0 ≠ none := by
  have h := Cache.age_eviction 10 3 20 (fun _ _ : Nat => ((0 : Nat), false))
    (fun _ : Nat => some (⟨1, none, 0, some true⟩ : element Nat)) 0
  exact ⟨h.1 ⟨1, none, 0, some true⟩ rfl (by decide) (by decide), h.2 ⟨1, none, 0, some true⟩ rfl⟩

/-- C8 counterexample: with `KeepTime = 1` and `RefreshTime = 10`, an entry of
age 5 is younger than `RefreshTime` — fresh in the claim's sense — yet the
maintenance cycle deletes it, because the over-`KeepTime` deletion branch has
precedence over the freshness branch. -/
theorem Cache.fresh_entry_deleted_cex :
    (5 : Nat) - (⟨0, none, 0, some true⟩ : element Nat).created < 10 ∧
    Cache.sweep 10 1 5 (fun _ _ : Nat => (0, false))
      (fun _ : Nat => some (⟨0, none, 0, some true⟩ : element Nat)) 0 = none := by
  constructor
  · decide
  · decide

/-- C8 amended: an entry younger than `refreshTime` that is not past a
positive `keepTime` is never touched by the maintenance loop — it is neither
deleted nor refreshed, and the pass is independent of the producer, so no
producer call can concern it. -/
theorem Cache.fresh_entry_untouched {K V : Type} (refreshTime keepTime now : Nat)
    (m : K → Option (element V)) (k : K) (e : element V)
    (he : m k = some e)
    (hfresh : now - e.created < refreshTime)
    (hkeep : keepTime = 0 ∨ now - e.created ≤ keepTime) :
    ∀ prod : Nat → K → V × Bool,
      Cache.sweep refreshTime keepTime now prod m k = some e := by
  intro prod
  have h1 : ¬(0 < keepTime ∧ keepTime < now - e.created) := by
    rcases hkeep with h | h <;> omega
  have hcl : Cache.classify refreshTime keepTime now e = .keep := by
    simp only [Cache.classify, if_neg h1, if_pos hfresh]
  simp [Cache.sweep, he, Cache.sweepEntry, hcl]

/-- Witness for the amended C8 at a concrete young entry. -/
theorem Cache.fresh_entry_untouched_witness :
    Cache.sweep 10 20 5 (fun _ _ : Nat => (9, true))
      (fun _ : Nat => some (⟨2, some 1, 0, some true⟩ : element Nat)) 0 =
      some ⟨2, some 1, 0, some true⟩ :=
  Cache.fresh_entry_untouched 10 20 5 (fun _ : Nat => some (⟨2, some 1, 0, some true⟩ : element Nat))
    0 ⟨2, some 1, 0, some true⟩ rfl (by decide) (Or.inr (by decide))
    (fun _ _ : Nat => (9, true))

/-- C9 counterexample: a maintenance lifetime consisting of one failed
producer run followed by shutdown leaves the gate resolved (closed exactly
once by the deferred release) although no producer invocation ever returned
`ok = true` — so the resolving event is not always a successful producer
invocation. -/
theorem CacheMap.gate_shutdown_cex :
    CacheMap.gateAtShutdown [false] = ⟨true, 1⟩ ∧ [false].any id = false := by
  constructor
  · rfl
  · rfl

/-- Helper: folding the once-guarded release over a run history, starting
from an arbitrary gate state. -/
theorem CacheMap.gate_fold (outs : List Bool) (g : GateState) :
    outs.foldl (fun g ok => if ok then CacheMap.resolveOnce g else g) g =
      if g.resolved then g
      else if outs.any id then ⟨true, g.closeCount + 1⟩ else g := by
  induction outs generalizing g with
  | nil => by_cases h : g.resolved <;> simp [h]
  | cons ok outs ih =>
    by_cases h : g.resolved
    · have hres : CacheMap.resolveOnce g = g := by simp [CacheMap.resolveOnce, h]
      cases ok <;> simp [ih, hres, h]
    · cases ok
      · simp only [List.foldl_cons, if_neg (Bool.false_ne_true), ih, if_neg h, List.any_cons,
          Bool.false_or, id]
      · have hres : CacheMap.resolveOnce g = ⟨true, g.closeCount + 1⟩ := by
          simp [CacheMap.resolveOnce, h]
        simp [ih, hres, h]

/-- C9 amended: the cache-wide gate is closed exactly once over the whole
lifetime; during operation it becomes resolved exactly when some producer run
has returned `ok = true` (so the first such run is what resolves it, and all
later resolution attempts are no-ops), and if no run ever succeeded, the
shutdown release resolves it instead. -/
theorem CacheMap.gate_resolution (outs : List Bool) :
    (CacheMap.gateAfterRuns outs).resolved = outs.any id ∧
    (CacheMap.gateAfterRuns outs).closeCount = (if outs.any id then 1 else 0) ∧
    (CacheMap.gateAtShutdown outs).resolved = true ∧
    (CacheMap.gateAtShutdown outs).closeCount = 1 := by
  have h := CacheMap.gate_fold outs ⟨false, 0⟩
  have hruns : CacheMap.gateAfterRuns outs =
      if outs.any id then ⟨true, 1⟩ else ⟨false, 0⟩ := by
    simpa [CacheMap.gateAfterRuns] using h
  by_cases hany : outs.any id
  · simp [hruns, hany, CacheMap.gateAtShutdown, CacheMap.resolveOnce]
  · simp [hruns, hany, CacheMap.gateAtShutdown, CacheMap.resolveOnce]

/-- C10: the bulk sweep deletes every entry whose age exceeds `KeepTime`
with no positivity guard — in particular `KeepTime = 0` marks every entry
created strictly before the sweep instant for deletion — whereas the per-key
cache sweep with `KeepTime = 0` never deletes anything. -/
theorem CacheMap.sweep_no_guard {K V : Type} (keepTime now : Nat)
    (m : K → Option (mapElement V)) (k : K) :
    (∀ e, m k = some e → keepTime < now - e.created →
      CacheMap.sweep keepTime now m k = none) ∧
    (∀ e, m k = some e → e.created < now → CacheMap.sweep 0 now m k = none) ∧
    (∀ (pm : K → Option (element V)) (prod : Nat → K → V × Bool) (refreshTime : Nat) e,
      pm k = some e → Cache.sweep refreshTime 0 now prod pm k ≠ none) := by
  refine ⟨fun e he hage => ?_, fun e he hage => ?_, fun pm prod refreshTime e he => ?_⟩
  · simp [CacheMap.sweep, he, hage]
  · have : (0 : Nat) < now - e.created := by omega
    simp [CacheMap.sweep, he, this, hage]
  · simp only [Cache.sweep, he, Option.bind_some]
    exact Cache.sweepEntry_keepTime_zero refreshTime now prod k e

/-- Witness for C10: with `KeepTime = 0` the bulk sweep deletes an entry of
age 1, while the per-key sweep keeps an entry of age 20. -/
theorem CacheMap.sweep_no_guard_witness :
    CacheMap.sweep 0 1 (fun _ : Nat => some (⟨3, 0⟩ : mapElement Nat)) 0 = none ∧
    Cache.sweep 10 0 20 (fun _ _ : Nat => (0, false))
      (fun _ : Nat => some (⟨1, none, 0, some true⟩ : element Nat)) 0 ≠ none := by
  have h := CacheMap.sweep_no_guard (V := Nat) 0 1 (fun _ : Nat => some (⟨3, 0⟩ : mapElement Nat)) 0
  refine ⟨h.2.1 ⟨3, 0⟩ rfl (by decide), ?_⟩
  have h2 := CacheMap.sweep_no_guard (V := Nat) 0 20
    (fun _ : Nat => some (⟨3, 0⟩ : mapElement Nat)) 0
  exact h2.2.2 (fun _ : Nat => some (⟨1, none, 0, some true⟩ : element Nat))
    (fun _ _ : Nat => (0, false)) 10 ⟨1, none, 0, some true⟩ rfl

/-- Phase of one caller in the race of `n` concurrent `Cache.Get` calls on
the same absent key: `start` before the atomic `GetOrCompute`; `running` for
the single inserter while its producer call is in flight; `resolving` once
the producer returned and the conditional store happened (carrying the call
result) but before the deferred `close(value.ready)`; `waiting` for a caller
whose `GetOrCompute` found the slot loaded; and three finished phases
recording the returned pair and how the caller finished. -/
inductive Phase (V : Type) where
  | start : Phase V
  | running : Phase V
  | resolving : V × Bool → Phase V
  | waiting : Phase V
  | doneWinner : V × Bool → Phase V
  | doneWaited : V × Bool → Phase V
  | doneCtx : V × Bool → Phase V
deriving DecidableEq

/-- Winner phases: the caller whose `GetOrCompute` inserted the slot. -/
def Phase.isWinner {V : Type} : Phase V → Prop
  | .running => True
  | .resolving _ => True
  | .doneWinner _ => True
  | _ => False

/-- Phases in which the caller has already invoked the producer. -/
def Phase.isPostRun {V : Type} : Phase V → Prop
  | .resolving _ => True
  | .doneWinner _ => True
  | _ => False

/-- Every post-run phase is a winner phase. -/
theorem Phase.isWinner_of_isPostRun {V : Type} {p : Phase V} (h : p.isPostRun) :
    p.isWinner := by
  cases p <;> simp_all [Phase.isPostRun, Phase.isWinner]

/-- Global state of the race on one key: the key's slot in the map, the
phase of each of the `n` callers, and how many producer invocations have
happened for the key's first population. -/
structure RaceState (n : Nat) (V : Type) where
  slot : Option (element V)
  phases : Fin n → Phase V
  prodCount : Nat

/-- All callers are about to call `Cache.Get`, the key is absent, and the
producer has never been invoked. -/
def RaceState.init (n : Nat) (V : Type) : RaceState n V :=
  { slot := none, phases := fun _ => .start, prodCount := 0 }

/-- Interleaving semantics of `n` concurrent `Cache.Get(ctx, key)` calls on
one absent key. `insert` is an atomic `GetOrCompute` miss: it creates the
slot with an open gate (the factory of `Cache.Get`) and makes the caller the
winner; `load` is a `GetOrCompute` hit. `compute` is the winner's producer
invocation together with the conditional store
(`value.data, value.lastUsed = data, time.Now()` when `ok`), and `close` the
deferred `close(value.ready)` when the winner returns. A waiting caller can
always leave through the `ctx.Done()` branch of the select (`ctxQuit`), and
once the gate is resolved it can pass it and finish according to
`value.lastUsed`, exactly as in `Cache.getReady`. -/
inductive RaceStep {n : Nat} {V : Type} (zero : V) :
    RaceState n V → RaceState n V → Prop where
  | insert (s : RaceState n V) (i : Fin n) (now : Nat)
      (hp : s.phases i = .start) (hs : s.slot = none) :
      RaceStep zero s
        { slot := some { data := zero, lastUsed := none, created := now, gate := some false },
          phases := Function.update s.phases i .running,
          prodCount := s.prodCount }
  | load (s : RaceState n V) (i : Fin n) (e : element V)
      (hp : s.phases i = .start) (hs : s.slot = some e) :
      RaceStep zero s { s with phases := Function.update s.phases i .waiting }
  | compute (s : RaceState n V) (i : Fin n) (e : element V) (d : V) (ok : Bool) (now : Nat)
      (hp : s.phases i = .running) (hs : s.slot = some e) :
      RaceStep zero s
        { slot := some (if ok then { e with data := d, lastUsed := some now } else e),
          phases := Function.update s.phases i (.resolving (if ok then d else e.data, ok)),
          prodCount := s.prodCount + 1 }
  | close (s : RaceState n V) (i : Fin n) (e : element V) (r : V × Bool)
      (hp : s.phases i = .resolving r) (hs : s.slot = some e) :
      RaceStep zero s
        { s with slot := some { e with gate := some true },
                 phases := Function.update s.phases i (.doneWinner r) }
  | ctxQuit (s : RaceState n V) (i : Fin n) (e : element V)
      (hp : s.phases i = .waiting) (hs : s.slot = some e) :
      RaceStep zero s
        { s with phases := Function.update s.phases i (.doneCtx (e.data, false)) }
  | waitFail (s : RaceState n V) (i : Fin n) (e : element V)
      (hp : s.phases i = .waiting) (hs : s.slot = some e)
      (hg : e.gate = some true) (hl : e.lastUsed = none) :
      RaceStep zero s
        { s with phases := Function.update s.phases i (.doneWaited (e.data, false)) }
  | waitDone (s : RaceState n V) (i : Fin n) (e : element V) (t now : Nat)
      (hp : s.phases i = .waiting) (hs : s.slot = some e)
      (hg : e.gate = some true) (hl : e.lastUsed = some t) :
      RaceStep zero s
        { s with slot := some { e with lastUsed := some now },
                 phases := Function.update s.phases i (.doneWaited (e.data, true)) }

/-- Reachability from the initial race state. -/
def RaceReach {n : Nat} {V : Type} (zero : V) (s : RaceState n V) : Prop :=
  Relation.ReflTransGen (RaceStep zero) (RaceState.init n V) s

/-- Inductive invariant of the race: before the insert everything is
untouched; afterwards there is at most one winner, the producer ran exactly
as often as some caller is past its producer call (never more than once),
the gate is open until the winner's deferred close, every finished reader
saw the resolved gate, and every recorded return value equals the slot's
data, which no longer changes once the gate is resolved. -/
def RaceInv {n : Nat} {V : Type} (s : RaceState n V) : Prop :=
  (s.slot = none → s.prodCount = 0 ∧ ∀ i, s.phases i = .start) ∧
  (∀ e, s.slot = some e →
    (∀ i j, (s.phases i).isWinner → (s.phases j).isWinner → i = j) ∧
    (s.prodCount = 0 ↔ ∀ i, ¬ (s.phases i).isPostRun) ∧
    s.prodCount ≤ 1 ∧
    (∀ i, s.phases i = .running → e.gate = some false) ∧
    (∀ i r, s.phases i = .resolving r → e.gate = some false ∧ r.1 = e.data) ∧
    (∀ i r, s.phases i = .doneWinner r → e.gate = some true ∧ r.1 = e.data) ∧
    (∀ i r, s.phases i = .doneWaited r → e.gate = some true ∧ r.1 = e.data) ∧
    (e.gate = some true → ∃ i r, s.phases i = .doneWinner r))

/-- The initial race state satisfies the invariant. -/
theorem RaceInv.initial (n : Nat) (V : Type) : RaceInv (RaceState.init n V) := by
  constructor
  · intro _; exact ⟨rfl, fun _ => rfl⟩
  · intro e he; exact absurd he (by simp [RaceState.init])

/-- The race invariant is preserved by every interleaving step. -/
theorem RaceInv.step {n : Nat} {V : Type} {zero : V} {s t : RaceState n V}
    (hstep : RaceStep zero s t) (hinv : RaceInv s) : RaceInv t := by
  obtain ⟨hnone, hsome⟩ := hinv
  cases hstep with
  | insert i now hp hs =>
    dsimp only [RaceInv]
    obtain ⟨hc0, hall⟩ := hnone hs
    refine ⟨fun h => Option.noConfusion h, ?_⟩
    intro e' he'
    have he2 : some ({ data := zero, lastUsed := none, created := now, gate := some false } : element V) = some e' := he'
    rw [Option.some.injEq] at he2
    subst he2
    refine ⟨?_, ?_, ?_, fun j hj => rfl, ?_, ?_, ?_, ?_⟩
    · intro j k hj hk
      rw [Function.update_apply] at hj hk
      by_cases hji : j = i
      · by_cases hki : k = i
        · exact hji.trans hki.symm
        · rw [if_neg hki, hall k] at hk
          exact hk.elim
      · rw [if_neg hji, hall j] at hj
        exact hj.elim
    · constructor
      · intro _ j
        rw [Function.update_apply]
        by_cases hji : j = i
        · rw [if_pos hji]
          intro h; exact h
        · rw [if_neg hji, hall j]
          intro h; exact h
      · intro _
        exact hc0
    · show s.prodCount ≤ 1
      omega
    · intro j r' hj
      rw [Function.update_apply] at hj
      by_cases hji : j = i
      · rw [if_pos hji] at hj; exact Phase.noConfusion hj
      · rw [if_neg hji, hall j] at hj; exact Phase.noConfusion hj
    · intro j r' hj
      rw [Function.update_apply] at hj
      by_cases hji : j = i
      · rw [if_pos hji] at hj; exact Phase.noConfusion hj
      · rw [if_neg hji, hall j] at hj; exact Phase.noConfusion hj
    · intro j r' hj
      rw [Function.update_apply] at hj
      by_cases hji : j = i
      · rw [if_pos hji] at hj; exact Phase.noConfusion hj
      · rw [if_neg hji, hall j] at hj; exact Phase.noConfusion hj
    · intro hg
      exact Bool.noConfusion (Option.some.inj hg)
  | load i e hp hs =>
    dsimp only [RaceInv]
    obtain ⟨huniq, hiff, hle, hrun, hres, hwin, hwait, hex⟩ := hsome e hs
    refine ⟨fun h => ?_, ?_⟩
    · have h' : s.slot = none := h
      rw [hs] at h'
      exact Option.noConfusion h'
    · intro e' he'
      have he2 : s.slot = some e' := he'
      rw [hs, Option.some.injEq] at he2
      subst he2
      refine ⟨?_, ?_, hle, ?_, ?_, ?_, ?_, ?_⟩
      · intro j k hj hk
        rw [Function.update_apply] at hj hk
        by_cases hji : j = i
        · rw [if_pos hji] at hj; exact hj.elim
        · rw [if_neg hji] at hj
          by_cases hki : k = i
          · rw [if_pos hki] at hk; exact hk.elim
          · rw [if_neg hki] at hk
            exact huniq j k hj hk
      · have hpost : ∀ j, (Function.update s.phases i Phase.waiting j).isPostRun
            ↔ (s.phases j).isPostRun := by
          intro j
          rw [Function.update_apply]
          by_cases hji : j = i
          · rw [if_pos hji, hji, hp]
            exact Iff.rfl
          · rw [if_neg hji]
        constructor
        · intro h0 j
          rw [hpost j]
          exact hiff.mp h0 j
        · intro h
          apply hiff.mpr
          intro j
          rw [← hpost j]
          exact h j
      · intro j hj
        rw [Function.update_apply] at hj
        by_cases hji : j = i
        · rw [if_pos hji] at hj; exact Phase.noConfusion hj
        · rw [if_neg hji] at hj; exact hrun j hj
      · intro j r' hj
        rw [Function.update_apply] at hj
        by_cases hji : j = i
        · rw [if_pos hji] at hj; exact Phase.noConfusion hj
        · rw [if_neg hji] at hj; exact hres j r' hj
      · intro j r' hj
        rw [Function.update_apply] at hj
        by_cases hji : j = i
        · rw [if_pos hji] at hj; exact Phase.noConfusion hj
        · rw [if_neg hji] at hj; exact hwin j r' hj
      · intro j r' hj
        rw [Function.update_apply] at hj
        by_cases hji : j = i
        · rw [if_pos hji] at hj; exact Phase.noConfusion hj
        · rw [if_neg hji] at hj; exact hwait j r' hj
      · intro hg
        obtain ⟨w, r0, hw⟩ := hex hg
        refine ⟨w, r0, ?_⟩
        rw [Function.update_apply]
        have hwi : w ≠ i := by
          intro hwi
          rw [hwi, hp] at hw
          exact Phase.noConfusion hw
        rw [if_neg hwi]
        exact hw
  | compute i e d ok now hp hs =>
    dsimp only [RaceInv]
    obtain ⟨huniq, hiff, hle, hrun, hres, hwin, hwait, hex⟩ := hsome e hs
    have hwin_i : (s.phases i).isWinner := by rw [hp]; trivial
    have hgate : e.gate = some false := hrun i hp
    have hpc0 : s.prodCount = 0 := by
      apply hiff.mpr
      intro j hj
      have hji := huniq j i (Phase.isWinner_of_isPostRun hj) hwin_i
      rw [hji, hp] at hj
      exact hj
    have hgd : (if ok then { e with data := d, lastUsed := some now } else e).gate
        = e.gate := by
      cases ok <;> rfl
    have hdd : (if ok then { e with data := d, lastUsed := some now } else e).data
        = (if ok then d else e.data) := by
      cases ok <;> rfl
    refine ⟨fun h => Option.noConfusion h, ?_⟩
    intro e' he'
    have he2 : some (if ok then { e with data := d, lastUsed := some now } else e)
        = some e' := he'
    rw [Option.some.injEq] at he2
    subst he2
    refine ⟨?_, ?_, ?_, ?_, ?_, ?_, ?_, ?_⟩
    · intro j k hj hk
      rw [Function.update_apply] at hj hk
      by_cases hji : j = i
      · by_cases hki : k = i
        · exact hji.trans hki.symm
        · rw [if_neg hki] at hk
          exact absurd (huniq k i hk hwin_i) hki
      · rw [if_neg hji] at hj
        exact absurd (huniq j i hj hwin_i) hji
    · constructor
      · intro h0
        exact absurd h0 (Nat.succ_ne_zero _)
      · intro h
        have hi := h i
        rw [Function.update_apply, if_pos rfl] at hi
        exact absurd trivial hi
    · show s.prodCount + 1 ≤ 1
      omega
    · intro j hj
      rw [Function.update_apply] at hj
      by_cases hji : j = i
      · rw [if_pos hji] at hj; exact Phase.noConfusion hj
      · rw [if_neg hji] at hj
        exact absurd (huniq j i (by rw [hj]; trivial) hwin_i) hji
    · intro j r' hj
      rw [Function.update_apply] at hj
      by_cases hji : j = i
      · rw [if_pos hji] at hj
        obtain rfl : (if ok then d else e.data, ok) = r' := Phase.resolving.inj hj
        refine ⟨?_, ?_⟩
        · rw [hgd]; exact hgate
        · rw [hdd]
      · rw [if_neg hji] at hj
        exact absurd (huniq j i (by rw [hj]; trivial) hwin_i) hji
    · intro j r' hj
      rw [Function.update_apply] at hj
      by_cases hji : j = i
      · rw [if_pos hji] at hj; exact Phase.noConfusion hj
      · rw [if_neg hji] at hj
        exact absurd (huniq j i (by rw [hj]; trivial) hwin_i) hji
    · intro j r' hj
      rw [Function.update_apply] at hj
      by_cases hji : j = i
      · rw [if_pos hji] at hj; exact Phase.noConfusion hj
      · rw [if_neg hji] at hj
        obtain ⟨hg', -⟩ := hwait j r' hj
        rw [hgate] at hg'
        exact Bool.noConfusion (Option.some.inj hg')
    · intro hg
      rw [hgd, hgate] at hg
      exact Bool.noConfusion (Option.some.inj hg)
  | close i e r hp hs =>
    dsimp only [RaceInv]
    obtain ⟨huniq, hiff, hle, hrun, hres, hwin, hwait, hex⟩ := hsome e hs
    obtain ⟨hgf, hr1⟩ := hres i r hp
    have hwin_i : (s.phases i).isWinner := by rw [hp]; trivial
    have hne0 : s.prodCount ≠ 0 := by
      intro h0
      have hi := hiff.mp h0 i
      rw [hp] at hi
      exact absurd trivial hi
    refine ⟨fun h => Option.noConfusion h, ?_⟩
    · intro e' he'
      have he2 : some { e with gate := some true } = some e' := he'
      rw [Option.some.injEq] at he2
      subst he2
      refine ⟨?_, ?_, hle, ?_, ?_, ?_, ?_, ?_⟩
      · intro j k hj hk
        rw [Function.update_apply] at hj hk
        by_cases hji : j = i
        · by_cases hki : k = i
          · exact hji.trans hki.symm
          · rw [if_neg hki] at hk
            exact absurd (huniq k i hk hwin_i) hki
        · rw [if_neg hji] at hj
          exact absurd (huniq j i hj hwin_i) hji
      · constructor
        · intro h0
          exact absurd h0 hne0
        · intro h
          have hi := h i
          rw [Function.update_apply, if_pos rfl] at hi
          exact absurd trivial hi
      · intro j hj
        rw [Function.update_apply] at hj
        by_cases hji : j = i
        · rw [if_pos hji] at hj; exact Phase.noConfusion hj
        · rw [if_neg hji] at hj
          exact absurd (huniq j i (by rw [hj]; trivial) hwin_i) hji
      · intro j r' hj
        rw [Function.update_apply] at hj
        by_cases hji : j = i
        · rw [if_pos hji] at hj; exact Phase.noConfusion hj
        · rw [if_neg hji] at hj
          exact absurd (huniq j i (by rw [hj]; trivial) hwin_i) hji
      · intro j r' hj
        rw [Function.update_apply] at hj
        by_cases hji : j = i
        · rw [if_pos hji] at hj
          obtain rfl : r = r' := Phase.doneWinner.inj hj
          exact ⟨rfl, hr1⟩
        · rw [if_neg hji] at hj
          exact absurd (huniq j i (by rw [hj]; trivial) hwin_i) hji
      · intro j r' hj
        rw [Function.update_apply] at hj
        by_cases hji : j = i
        · rw [if_pos hji] at hj; exact Phase.noConfusion hj
        · rw [if_neg hji] at hj
          obtain ⟨hg', -⟩ := hwait j r' hj
          rw [hgf] at hg'
          exact Bool.noConfusion (Option.some.inj hg')
      · intro _
        refine ⟨i, r, ?_⟩
        rw [Function.update_apply, if_pos rfl]
  | ctxQuit i e hp hs =>
    dsimp only [RaceInv]
    obtain ⟨huniq, hiff, hle, hrun, hres, hwin, hwait, hex⟩ := hsome e hs
    refine ⟨fun h => ?_, ?_⟩
    · have h' : s.slot = none := h
      rw [hs] at h'
      exact Option.noConfusion h'
    · intro e' he'
      have he2 : s.slot = some e' := he'
      rw [hs, Option.some.injEq] at he2
      subst he2
      refine ⟨?_, ?_, hle, ?_, ?_, ?_, ?_, ?_⟩
      · intro j k hj hk
        rw [Function.update_apply] at hj hk
        by_cases hji : j = i
        · rw [if_pos hji] at hj; exact hj.elim
        · rw [if_neg hji] at hj
          by_cases hki : k = i
          · rw [if_pos hki] at hk; exact hk.elim
          · rw [if_neg hki] at hk
            exact huniq j k hj hk
      · have hpost : ∀ j, (Function.update s.phases i (Phase.doneCtx (e.data, false)) j).isPostRun
            ↔ (s.phases j).isPostRun := by
          intro j
          rw [Function.update_apply]
          by_cases hji : j = i
          · rw [if_pos hji, hji, hp]
            exact Iff.rfl
          · rw [if_neg hji]
        constructor
        · intro h0 j
          rw [hpost j]
          exact hiff.mp h0 j
        · intro h
          apply hiff.mpr
          intro j
          rw [← hpost j]
          exact h j
      · intro j hj
        rw [Function.update_apply] at hj
        by_cases hji : j = i
        · rw [if_pos hji] at hj; exact Phase.noConfusion hj
        · rw [if_neg hji] at hj; exact hrun j hj
      · intro j r' hj
        rw [Function.update_apply] at hj
        by_cases hji : j = i
        · rw [if_pos hji] at hj; exact Phase.noConfusion hj
        · rw [if_neg hji] at hj; exact hres j r' hj
      · intro j r' hj
        rw [Function.update_apply] at hj
        by_cases hji : j = i
        · rw [if_pos hji] at hj; exact Phase.noConfusion hj
        · rw [if_neg hji] at hj; exact hwin j r' hj
      · intro j r' hj
        rw [Function.update_apply] at hj
        by_cases hji : j = i
        · rw [if_pos hji] at hj; exact Phase.noConfusion hj
        · rw [if_neg hji] at hj; exact hwait j r' hj
      · intro hg
        obtain ⟨w, r0, hw⟩ := hex hg
        refine ⟨w, r0, ?_⟩
        rw [Function.update_apply]
        have hwi : w ≠ i := by
          intro hwi
          rw [hwi, hp] at hw
          exact Phase.noConfusion hw
        rw [if_neg hwi]
        exact hw
  | waitFail i e hp hs hg hl =>
    dsimp only [RaceInv]
    obtain ⟨huniq, hiff, hle, hrun, hres, hwin, hwait, hex⟩ := hsome e hs
    refine ⟨fun h => ?_, ?_⟩
    · have h' : s.slot = none := h
      rw [hs] at h'
      exact Option.noConfusion h'
    · intro e' he'
      have he2 : s.slot = some e' := he'
      rw [hs, Option.some.injEq] at he2
      subst he2
      refine ⟨?_, ?_, hle, ?_, ?_, ?_, ?_, ?_⟩
      · intro j k hj hk
        rw [Function.update_apply] at hj hk
        by_cases hji : j = i
        · rw [if_pos hji] at hj; exact hj.elim
        · rw [if_neg hji] at hj
          by_cases hki : k = i
          · rw [if_pos hki] at hk; exact hk.elim
          · rw [if_neg hki] at hk
            exact huniq j k hj hk
      · have hpost : ∀ j, (Function.update s.phases i (Phase.doneWaited (e.data, false)) j).isPostRun
            ↔ (s.phases j).isPostRun := by
          intro j
          rw [Function.update_apply]
          by_cases hji : j = i
          · rw [if_pos hji, hji, hp]
            exact Iff.rfl
          · rw [if_neg hji]
        constructor
        · intro h0 j
          rw [hpost j]
          exact hiff.mp h0 j
        · intro h
          apply hiff.mpr
          intro j
          rw [← hpost j]
          exact h j
      · intro j hj
        rw [Function.update_apply] at hj
        by_cases hji : j = i
        · rw [if_pos hji] at hj; exact Phase.noConfusion hj
        · rw [if_neg hji] at hj; exact hrun j hj
      · intro j r' hj
        rw [Function.update_apply] at hj
        by_cases hji : j = i
        · rw [if_pos hji] at hj; exact Phase.noConfusion hj
        · rw [if_neg hji] at hj; exact hres j r' hj
      · intro j r' hj
        rw [Function.update_apply] at hj
        by_cases hji : j = i
        · rw [if_pos hji] at hj; exact Phase.noConfusion hj
        · rw [if_neg hji] at hj; exact hwin j r' hj
      · intro j r' hj
        rw [Function.update_apply] at hj
        by_cases hji : j = i
        · rw [if_pos hji] at hj
          obtain rfl : (e.data, false) = r' := Phase.doneWaited.inj hj
          exact ⟨hg, rfl⟩
        · rw [if_neg hji] at hj; exact hwait j r' hj
      · intro hg'
        obtain ⟨w, r0, hw⟩ := hex hg'
        refine ⟨w, r0, ?_⟩
        rw [Function.update_apply]
        have hwi : w ≠ i := by
          intro hwi
          rw [hwi, hp] at hw
          exact Phase.noConfusion hw
        rw [if_neg hwi]
        exact hw
  | waitDone i e tp now hp hs hg hl =>
    dsimp only [RaceInv]
    obtain ⟨huniq, hiff, hle, hrun, hres, hwin, hwait, hex⟩ := hsome e hs
    refine ⟨fun h => Option.noConfusion h, ?_⟩
    intro e' he'
    have he2 : some { e with lastUsed := some now } = some e' := he'
    rw [Option.some.injEq] at he2
    subst he2
    refine ⟨?_, ?_, hle, ?_, ?_, ?_, ?_, ?_⟩
    · intro j k hj hk
      rw [Function.update_apply] at hj hk
      by_cases hji : j = i
      · rw [if_pos hji] at hj; exact hj.elim
      · rw [if_neg hji] at hj
        by_cases hki : k = i
        · rw [if_pos hki] at hk; exact hk.elim
        · rw [if_neg hki] at hk
          exact huniq j k hj hk
    · have hpost : ∀ j, (Function.update s.phases i (Phase.doneWaited (e.data, true)) j).isPostRun
          ↔ (s.phases j).isPostRun := by
        intro j
        rw [Function.update_apply]
        by_cases hji : j = i
        · rw [if_pos hji, hji, hp]
          exact Iff.rfl
        · rw [if_neg hji]
      constructor
      · intro h0 j
        rw [hpost j]
        exact hiff.mp h0 j
      · intro h
        apply hiff.mpr
        intro j
        rw [← hpost j]
        exact h j
    · intro j hj
      rw [Function.update_apply] at hj
      by_cases hji : j = i
      · rw [if_pos hji] at hj; exact Phase.noConfusion hj
      · rw [if_neg hji] at hj; exact hrun j hj
    · intro j r' hj
      rw [Function.update_apply] at hj
      by_cases hji : j = i
      · rw [if_pos hji] at hj; exact Phase.noConfusion hj
      · rw [if_neg hji] at hj; exact hres j r' hj
    · intro j r' hj
      rw [Function.update_apply] at hj
      by_cases hji : j = i
      · rw [if_pos hji] at hj; exact Phase.noConfusion hj
      · rw [if_neg hji] at hj; exact hwin j r' hj
    · intro j r' hj
      rw [Function.update_apply] at hj
      by_cases hji : j = i
      · rw [if_pos hji] at hj
        obtain rfl : (e.data, true) = r' := Phase.doneWaited.inj hj
        exact ⟨hg, rfl⟩
      · rw [if_neg hji] at hj; exact hwait j r' hj
    · intro hg'
      obtain ⟨w, r0, hw⟩ := hex hg'
      refine ⟨w, r0, ?_⟩
      rw [Function.update_apply]
      have hwi : w ≠ i := by
        intro hwi
        rw [hwi, hp] at hw
        exact Phase.noConfusion hw
      rw [if_neg hwi]
      exact hw

/-- Every reachable race state satisfies the invariant. -/
theorem RaceInv.reach {n : Nat} {V : Type} {zero : V} {s : RaceState n V}
    (h : RaceReach zero s) : RaceInv s := by
  induction h with
  | refl => exact RaceInv.initial n V
  | tail hsteps hstep ih => exact RaceInv.step hstep ih

/-- C1: in every reachable state of `n` concurrent `Cache.Get` calls racing
on one absent key, the producer has been invoked at most once for the key's
first population (exactly one caller wins the atomic `GetOrCompute` insert
and only that caller ever computes), and every caller that finished by
waiting on the readiness gate returned the same value — the one the winner
stored and returned. -/
theorem Cache.Get_coalescing {n : Nat} {V : Type} (zero : V) (s : RaceState n V)
    (h : RaceReach zero s) :
    s.prodCount ≤ 1 ∧
    (∀ i j ri rj, s.phases i = .doneWaited ri → s.phases j = .doneWaited rj →
      ri.1 = rj.1) ∧
    (∀ i j ri rj, s.phases i = .doneWaited ri → s.phases j = .doneWinner rj →
      ri.1 = rj.1) := by
  obtain ⟨hnone, hsome⟩ := RaceInv.reach h
  cases hslot : s.slot with
  | none =>
    obtain ⟨hc0, hall⟩ := hnone hslot
    refine ⟨by omega, ?_, ?_⟩
    · intro i j ri rj hi hj
      rw [hall i] at hi
      exact Phase.noConfusion hi
    · intro i j ri rj hi hj
      rw [hall i] at hi
      exact Phase.noConfusion hi
  | some e =>
    obtain ⟨huniq, hiff, hle, hrun, hres, hwin, hwait, hex⟩ := hsome e hslot
    refine ⟨hle, ?_, ?_⟩
    · intro i j ri rj hi hj
      rw [(hwait i ri hi).2, (hwait j rj hj).2]
    · intro i j ri rj hi hj
      rw [(hwait i ri hi).2, (hwin j rj hj).2]

/-- Witness for C1 at the initial state of two racing callers. -/
theorem Cache.Get_coalescing_witness :
    (RaceState.init 2 Nat).prodCount ≤ 1 ∧
    (∀ i j ri rj, (RaceState.init 2 Nat).phases i = .doneWaited ri →
      (RaceState.init 2 Nat).phases j = .doneWaited rj → ri.1 = rj.1) ∧
    (∀ i j ri rj, (RaceState.init 2 Nat).phases i = .doneWaited ri →
      (RaceState.init 2 Nat).phases j = .doneWinner rj → ri.1 = rj.1) :=
  Cache.Get_coalescing 0 (RaceState.init 2 Nat) Relation.ReflTransGen.refl

/-- The race model is exercised end to end: a five-step interleaving of two
callers — insert, load, compute with `(7, true)`, deferred close, gate pass —
reaches a state in which the winner finished with `(7, true)`, the waiter
finished with the same value, and exactly one producer call happened. -/
theorem RaceReach.sample_trace :
    ∃ s : RaceState 2 Nat, RaceReach (0 : Nat) s ∧ s.prodCount = 1 ∧
      s.phases 0 = Phase.doneWinner (7, true) ∧
      s.phases 1 = Phase.doneWaited (7, true) := by
  refine ⟨_,
    Relation.ReflTransGen.tail
      (Relation.ReflTransGen.tail
        (Relation.ReflTransGen.tail
          (Relation.ReflTransGen.tail
            (Relation.ReflTransGen.single
              (RaceStep.insert (RaceState.init 2 Nat) 0 0 rfl rfl))
            (RaceStep.load _ 1 _ (by decide) rfl))
          (RaceStep.compute _ 0 _ 7 true 1 (by decide) rfl))
        (RaceStep.close _ 0 _ (7, true) (by decide) rfl))
      (RaceStep.waitDone _ 1 _ 1 2 (by decide) rfl (by decide) (by decide)),
    by decide, by decide, by decide⟩
